import Mathlib

/-!
Verification of the serverless-template-function-calls plugin core
(src/lib/index.js) against its natural-language specification.

The JavaScript source is embedded shallowly: JS values become the `Val`
inductive, JS objects become ordered association lists (insertion order
preserved, as JS string-keyed objects do), in-place mutation becomes
explicit state passing, and the self-recursive tree rewriter gets a fuel
parameter so that it is a total structural recursion (the source performs
no cycle detection and can diverge; fuel exhaustion is reported as a
distinguished error that no theorem below ever accepts as a result).
-/

namespace TemplateFnCalls

/-! ## JS value model -/

/-- A JavaScript value as the plugin manipulates them: scalars
(string/number/boolean/null/undefined), arrays, and string-keyed objects
with insertion order. -/
inductive Val where
  | vstr : String → Val
  | vnum : Int → Val
  | vbool : Bool → Val
  | vnull : Val
  | vundefined : Val
  | varr : List Val → Val
  | vobj : List (String × Val) → Val

/-- Canonical decimal array-index test: JS array indexing by a string key
hits an element only when the key is the canonical decimal form of the
index. -/
def strToIndex (s : String) : Option Nat :=
  match s.toNat? with
  | some n => if toString n = s then some n else none
  | none => none

/-- Property read `v[k]`, returning JS `undefined` when absent.
Mirrors JS property access for objects, arrays (index keys) and strings
(character at index). -/
def getProp (v : Val) (k : String) : Val :=
  match v with
  | .vobj kvs =>
    match kvs.find? (fun kv => kv.1 == k) with
    | some kv => kv.2
    | none => .vundefined
  | .varr xs =>
    match strToIndex k with
    | some i =>
      match xs.get? i with
      | some x => x
      | none => .vundefined
    | none => .vundefined
  | .vstr s =>
    match strToIndex k with
    | some i =>
      match s.data.get? i with
      | some c => .vstr (String.mk [c])
      | none => .vundefined
    | none => .vundefined
  | _ => .vundefined

/-- JS object assignment on an association list: an existing key keeps its
position, a new key is appended, as JS objects behave. -/
def objUpdate : List (String × Val) → String → Val → List (String × Val)
  | [], k, x => [(k, x)]
  | (k', v') :: rest, k, x =>
    if k' == k then (k, x) :: rest else (k', v') :: objUpdate rest k x

/-- Property write `v[k] := x` (objects and in-range array indices; writes
on scalars are unreachable in the plugin and leave the value unchanged). -/
def setProp (v : Val) (k : String) (x : Val) : Val :=
  match v with
  | .vobj kvs => .vobj (objUpdate kvs k x)
  | .varr xs =>
    match strToIndex k with
    | some i => .varr (xs.set i x)
    | none => .varr xs
  | other => other

/-- The key list `Object.keys(v)`: own keys in insertion order for
objects, index strings for arrays and strings, empty otherwise. -/
def keysOf (v : Val) : List String :=
  match v with
  | .vobj kvs => kvs.map (fun kv => kv.1)
  | .varr xs => (List.range xs.length).map (fun n => toString n)
  | .vstr s => (List.range s.length).map (fun n => toString n)
  | _ => []

/-- Source `applyPosition`: walk property segments from the given object
(src/lib/index.js lines 28-32). -/
def applyPosition (object : Val) (position : List String) : Val :=
  position.foldl getProp object

/-- Write through a nonempty path: `applyPosition object (dropLast p)`
gets the owning node and its last segment is assigned. The empty path
never occurs as a write target in the source. -/
def setPath (v : Val) (p : List String) (x : Val) : Val :=
  match p with
  | [] => v
  | [k] => setProp v k x
  | k :: rest => setProp v k (setPath (getProp v k) rest x)

/-- Source `isObject`: `typeof val === "object" && val !== null`; arrays
and objects qualify, scalars / null / undefined do not. -/
def isObjectVal (v : Val) : Bool :=
  match v with
  | .varr _ => true
  | .vobj _ => true
  | _ => false

/-- The whitespace class of the JS `\s` regex and `String.prototype.trim`,
restricted to the characters that can occur here. -/
def isJsWhitespace (c : Char) : Bool :=
  c == ' ' || c == '\t' || c == '\n' || c == '\r' ||
  c == '\x0b' || c == '\x0c' || c == '\u00A0' || c == '\uFEFF'

/-- JS `String.prototype.trim` on the character list. -/
def jsTrim (l : List Char) : List Char :=
  ((l.dropWhile isJsWhitespace).reverse.dropWhile isJsWhitespace).reverse

/-- JS truthiness of a value. -/
def isTruthy (v : Val) : Bool :=
  match v with
  | .vstr s => s != ""
  | .vnum n => n != 0
  | .vbool b => b
  | .vnull => false
  | .vundefined => false
  | .varr _ => true
  | .vobj _ => true

/-- JS `a || b`. -/
def jsOr (a b : Val) : Val := if isTruthy a then a else b

/-! ## Expression decoder (src/lib/index.js lines 129-133, 285-305) -/

/-- The settings the rewriter consumes after validation: the literal
expression marker and the root names to scan. -/
structure Config where
  functionPrefix : String
  roots : List String

/-- Source `decodeFunctionString` result: the dotted function name and
the raw text between the parentheses. -/
structure FnExpr where
  functionName : String
  functionArgumentContent : String
deriving DecidableEq

/-- Split at the first opening parenthesis: `+[^(]*\(+` of the source
regex. Succeeds exactly on `name ++ '(' :: rest` with no parenthesis in
`name`. -/
def splitAtParen : List Char → Option (List Char × List Char)
  | [] => none
  | c :: rest =>
    if c = '(' then some ([], rest)
    else (splitAtParen rest).map (fun pr => (c :: pr.1, pr.2))

/-- Strip a final closing parenthesis: the `+\)$+` of the source regex.
Succeeds exactly on `mid ++ [')']`, returning `mid`. -/
def splitLastParen : List Char → Option (List Char)
  | [] => none
  | [c] => if c = ')' then some [] else none
  | c :: rest => (splitLastParen rest).map (fun mid => c :: mid)

/-- A character the JS `.` regex atom matches: anything but a line
terminator (the source regex has no `s` flag). -/
def jsDotMatches (c : Char) : Bool :=
  !(c == '\n' || c == '\r' || c == '\u2028' || c == '\u2029')

/-- The source regex `^(?<functionName>[^(]*)\((?<functionArgumentContent>.*)\)$`
applied to a character list: name before the first `(`, content between it
and a final `)`, the content free of line terminators (JS `.`). -/
def functionStringRegexMatch (l : List Char) : Option (List Char × List Char) :=
  match splitAtParen l with
  | some (name, rest) =>
    match splitLastParen rest with
    | some mid => if mid.all jsDotMatches then some (name, mid) else none
    | none => none
  | none => none

/-- Source `decodeFunctionString`: reject unless the string starts with
the configured literal marker, strip it, and match the call regex. Note
the source performs no trimming here. -/
def decodeFunctionString (functionString : String) (cfg : Config) : Option FnExpr :=
  let pre := (Config.functionPrefix cfg).data
  if functionString.data.take pre.length ≠ pre then none
  else
    match functionStringRegexMatch (functionString.data.drop pre.length) with
    | some (name, content) => some ⟨String.mk name, String.mk content⟩
    | none => none

/-! ## Argument tokenizer (src/lib/index.js lines 307-351)

The source walks the trimmed argument content with
`currArgument : String | undefined` and `afterComma : Bool`, states:
`(undefined, true)` awaiting an argument start, `(some cur, true)` inside
a double-quoted literal, `(undefined, false)` awaiting a separator.
The loop epilogue returns the collected arguments whatever state it ends
in - the source has no unterminated-literal check. -/

/-- The tokenizer loop of source `decodeFunctionArgumentString`, one
match arm per state transition of the source state machine (the
in-literal state is split on whether a character follows, because the
backslash transition reads one character ahead). -/
def decodeArgLoop : List Char → Option String → Bool → List String → Option (List String)
  | [], _, _, args => some args
  | c :: rest, none, true, args =>
    if c = '"' then decodeArgLoop rest (some "") true args
    else if isJsWhitespace c then decodeArgLoop rest none true args
    else none
  | c :: d :: rest', some cur, true, args =>
    if c = '\\' then decodeArgLoop rest' (some (cur.push d)) true args
    else if c = '"' then decodeArgLoop (d :: rest') none false (args ++ [cur])
    else decodeArgLoop (d :: rest') (some (cur.push c)) true args
  | [c], some cur, true, args =>
    -- on a final backslash the source appends argumentContent[i+1], the
    -- JS string "undefined", to a buffer the epilogue then discards
    if c = '\\' then decodeArgLoop [] (some (cur ++ "undefined")) true args
    else if c = '"' then decodeArgLoop [] none false (args ++ [cur])
    else decodeArgLoop [] (some (cur.push c)) true args
  | c :: rest, none, false, args =>
    if c = ',' then decodeArgLoop rest none true args
    else if isJsWhitespace c then decodeArgLoop rest none false args
    else none
  | _ :: _, some _, false, _ => none

/-- Source `decodeFunctionArgumentString`: trim, then run the state
machine from the awaiting-argument state. -/
def decodeFunctionArgumentString (argumentContent : String) : Option (List String) :=
  decodeArgLoop (jsTrim argumentContent.data) none true []

/-- Modelled from the spec: the section 4.2 tokenizer grammar, whose only
difference from the source machine is its end-of-input rule - ending
inside a literal (state 2) or right after a comma is malformed, only the
await-separator state (or wholly empty input) accepts. -/
def specArgLoop : List Char → Option String → Bool → List String → Option (List String)
  | [], none, false, args => some args
  | [], _, _, _ => none
  | c :: rest, none, true, args =>
    if c = '"' then specArgLoop rest (some "") true args
    else if isJsWhitespace c then specArgLoop rest none true args
    else none
  | c :: d :: rest', some cur, true, args =>
    if c = '\\' then specArgLoop rest' (some (cur.push d)) true args
    else if c = '"' then specArgLoop (d :: rest') none false (args ++ [cur])
    else specArgLoop (d :: rest') (some (cur.push c)) true args
  | [c], some cur, true, args =>
    if c = '\\' then none
    else if c = '"' then specArgLoop [] none false (args ++ [cur])
    else specArgLoop [] (some (cur.push c)) true args
  | c :: rest, none, false, args =>
    if c = ',' then specArgLoop rest none true args
    else if isJsWhitespace c then specArgLoop rest none false args
    else none
  | _ :: _, some _, false, _ => none

/-- Modelled from the spec: trim; empty input is the empty argument list;
otherwise the grammar machine decides. -/
def specArgTokenize (argumentContent : String) : Option (List String) :=
  let l := jsTrim argumentContent.data
  if l = [] then some [] else specArgLoop l none true []

/-! ## Function registry and invocation context
(src/lib/index.js lines 34-106, 237-265, 353-371) -/

/-- One node of the ancestry chain the context exposes: the segment that
led here (none for the synthetic root) and the value at this point. The
source additionally stores parent/child back-references, which are
positional in this list representation. -/
structure AncElem where
  key : Option String
  value : Val

/-- The recursion inside source `__createAncestry`: one element per
position segment, each reading the child of the previous value. -/
def ancestryWalk (parentVal : Val) : List String → List AncElem
  | [] => []
  | childKey :: ks =>
    let v := getProp parentVal childKey
    ⟨some childKey, v⟩ :: ancestryWalk v ks

/-- Source `__createAncestry`: the synthetic root first, then one node
per segment of the position. -/
def createAncestry (template : Val) (position : List String) : List AncElem :=
  ⟨none, template⟩ :: ancestryWalk template position

/-- Source `deepCopy` produces a structurally equal fresh copy of arrays
and plain objects (leaving leaves as they are). In this pure value model
a structurally equal copy is the value itself; the detachment the copy
buys in JS - later mutations of the live tree do not reach the copy - is
automatic for immutable values. -/
def deepCopy (val : Val) : Val := val

/-- Source `ServerlessTemplateContext`: the deep-copied template, the
position of the call site, and the ancestry chain over the copy. -/
structure ServerlessTemplateContext where
  template : Val
  position : List String
  ancestry : List AncElem

/-- The source constructor: copy the template, keep the position, build
the ancestry from the copy. -/
def mkServerlessTemplateContext (template : Val) (position : List String) :
    ServerlessTemplateContext :=
  ⟨deepCopy template, position, createAncestry (deepCopy template) position⟩

/-- A registered template function: receives the (spread) argument list
and the bound context, returns a value or throws. -/
def Fn : Type := List Val → ServerlessTemplateContext → Except String Val

/-- The `functions` JS object: qualified and aliased names to callables,
in insertion order. -/
def Funcs : Type := List (String × Fn)

/-- JS property lookup on the functions object. -/
def jsGetFn (fns : Funcs) (name : String) : Option Fn :=
  (fns.find? (fun kv => kv.1 == name)).map (fun kv => kv.2)

/-- JS property assignment on the functions object (same semantics as
`objUpdate`: existing key keeps its position, new key appended). -/
def objSetFn : Funcs → String → Fn → Funcs
  | [], k, f => [(k, f)]
  | (k', f') :: rest, k, f =>
    if k' == k then (k, f) :: rest else (k', f') :: objSetFn rest k f

/-- A module export tree as `formatModules` walks it: nested plain
objects with functions at the leaves; anything else is skipped. -/
inductive ModExport where
  | mfn : Fn → ModExport
  | mobj : List (String × ModExport) → ModExport
  | mother : Val → ModExport

mutual

/-- Source `takeFunctions` (the recursion inside `formatModules`): walk
the export tree in key order, registering each function under the
dot-joined path. -/
def takeFunctions : String → ModExport → Funcs → Funcs
  | pathName, .mfn f, acc => objSetFn acc pathName f
  | _, .mother _, acc => acc
  | pathName, .mobj kvs, acc => takeFunctionsList pathName kvs acc

/-- The `Object.keys(container).forEach` of `takeFunctions`. -/
def takeFunctionsList : String → List (String × ModExport) → Funcs → Funcs
  | _, [], acc => acc
  | pathName, (k, c) :: rest, acc =>
    takeFunctionsList pathName rest (takeFunctions (pathName ++ "." ++ k) c acc)

end

/-- Source short name: `functionName.match(/([^.]*)$/)[1]`, the suffix
after the last dot. -/
def shortNameOf (functionName : String) : String :=
  String.mk ((functionName.data.reverse.takeWhile (fun c => c ≠ '.')).reverse)

/-- The alias pass of source `formatModules`: for each already-registered
name, in insertion order, claim the short name only when nothing
(function values are always truthy) is registered under it yet. -/
def addAliases (fns : Funcs) : Funcs :=
  (fns.map (fun kv => kv.1)).foldl
    (fun acc functionName =>
      let shortFunctionName := shortNameOf functionName
      match jsGetFn acc shortFunctionName with
      | some _ => acc
      | none =>
        match jsGetFn acc functionName with
        | some f => objSetFn acc shortFunctionName f
        | none => acc)
    fns

/-- Source `formatModules`: register every module's functions under
qualified names (module file name first, then dotted keys), then add
short-name aliases first-come-wins. -/
def formatModules (modules : List (String × ModExport)) : Funcs :=
  addAliases (modules.foldl (fun acc m => takeFunctions m.1 m.2 acc) [])

/-! ## Errors and function execution -/

/-- An aborted run: either a thrown `Error` with the message the source
builds (its `throwError` prepends a fixed banner), or exhaustion of the
fuel this embedding adds (the source has no such bound and would simply
not terminate). -/
inductive RunErr where
  | js : String → RunErr
  | fuel : RunErr
deriving DecidableEq

/-- JSON string quoting for the error message that serializes the
argument list (escapes kept to those that can arise here). -/
def jsonQuote (s : String) : String :=
  "\"" ++ String.mk (s.data.foldr
    (fun c acc =>
      if c = '"' then '\\' :: '"' :: acc
      else if c = '\\' then '\\' :: '\\' :: acc
      else if c = '\n' then '\\' :: 'n' :: acc
      else c :: acc) []) ++ "\""

/-- Comma-join for the serializer. -/
def joinComma : List String → String
  | [] => ""
  | [s] => s
  | s :: rest => s ++ "," ++ joinComma rest

mutual

/-- `JSON.stringify` as used in the invocation-failure message. -/
def jsonStringify : Val → String
  | .vstr s => jsonQuote s
  | .vnum n => toString n
  | .vbool b => if b then "true" else "false"
  | .vnull => "null"
  | .vundefined => "null"
  | .varr xs => "[" ++ joinComma (jsonStringifyList xs) ++ "]"
  | .vobj kvs => "\x7b" ++ joinComma (jsonStringifyPairs kvs) ++ "\x7d"

/-- Serialize array elements. -/
def jsonStringifyList : List Val → List String
  | [] => []
  | x :: rest => jsonStringify x :: jsonStringifyList rest

/-- Serialize object pairs. -/
def jsonStringifyPairs : List (String × Val) → List String
  | [] => []
  | (k, v) :: rest => (jsonQuote k ++ ":" ++ jsonStringify v) :: jsonStringifyPairs rest

end

/-- The banner source `throwError` prepends to every message. -/
def errBanner (msg : String) : RunErr :=
  .js ("Template Function Calls Error: " ++ msg)

/-- Source `executeFunction`: look the name up, build a fresh context
from the tree as it is at this invocation, call the function, wrap any
failure. (The source constructs the context before the not-found check;
both are pure here.) -/
def executeFunction (functionName : String) (functionArguments : List Val)
    (template : Val) (position : List String) (fns : Funcs) : Except RunErr Val :=
  let ctx := mkServerlessTemplateContext template position
  match jsGetFn fns functionName with
  | none => .error (errBanner ("function \"" ++ functionName ++ "\" was not found"))
  | some functionInstance =>
    match functionInstance functionArguments ctx with
    | .ok v => .ok v
    | .error _ =>
      .error (errBanner ("function call to \"" ++ functionName ++
        "\" with the argument ..." ++ jsonStringify (.varr functionArguments) ++
        " threw an error"))

/-! ## Config reading and validation (src/lib/index.js lines 159-208) -/

/-- The merged-but-unvalidated settings triple, in the key order of
source `getDefaultConfig`. -/
structure RawConfig where
  modules : Val
  functionPrefix : Val
  roots : Val

/-- Array-of-strings test `Array.isArray(v) && v.every(x => typeof x === "string")`
(the short-circuit makes `every` safe). -/
def isStringArrayVal (v : Val) : Bool :=
  match v with
  | .varr xs => xs.all (fun x => match x with | .vstr _ => true | _ => false)
  | _ => false

/-- Whether the value is a JS string. -/
def isStrVal (v : Val) : Bool :=
  match v with | .vstr _ => true | _ => false

/-- `Array.isArray`. -/
def isArrayVal (v : Val) : Bool :=
  match v with | .varr _ => true | _ => false

/-- `v.every(x => typeof x === "string")` on an array (only reached when
the receiver is an array). -/
def allStringElements (v : Val) : Bool :=
  match v with
  | .varr xs => xs.all (fun x => match x with | .vstr _ => true | _ => false)
  | _ => false

/-- Source `validateConfig`, faithfully including its third condition,
which tests `modules.every(...)` where the error message speaks of
`roots` (src/lib/index.js line 168). -/
def validateConfig (config : RawConfig) : Option String :=
  if ¬ isStrVal (RawConfig.functionPrefix config) then
    some "functionPrefix has to be a string"
  else if ¬ isStringArrayVal (RawConfig.modules config) then
    some "modules has to be a string array"
  else if ¬ (isArrayVal (RawConfig.roots config) ∧
             allStringElements (RawConfig.modules config)) then
    some "roots has to be a string array"
  else none

/-- The default root list of source `getDefaultConfig`. -/
def defaultRoots : List String :=
  ["resources", "functions", "custom", "layers", "service", "provider",
   "plugins", "outputs"]

/-- Source `getDefaultConfig` as a raw value triple. -/
def getDefaultConfig : RawConfig :=
  ⟨.varr [], .vstr "+", .varr (defaultRoots.map Val.vstr)⟩

/-- Whether a key is among the object's own keys
(`Object.keys(x).includes(key)`). -/
def hasKey (v : Val) (k : String) : Bool :=
  (keysOf v).contains k

/-- Source `getConfig`: read `custom.templateFunctionCalls` (empty object
fallbacks), overwrite each default key that the input supplies, validate,
and throw the validation message if any. -/
def getConfig (slsTemplate : Val) : Except RunErr RawConfig :=
  let custom := jsOr (getProp slsTemplate "custom") (.vobj [])
  let configInput := jsOr (getProp custom "templateFunctionCalls") (.vobj [])
  let pick := fun (k : String) (dflt : Val) =>
    if hasKey configInput k then getProp configInput k else dflt
  let config : RawConfig :=
    ⟨pick "modules" (RawConfig.modules getDefaultConfig),
     pick "functionPrefix" (RawConfig.functionPrefix getDefaultConfig),
     pick "roots" (RawConfig.roots getDefaultConfig)⟩
  match validateConfig config with
  | some msg => .error (errBanner msg)
  | none => .ok config

/-! ## The tree rewriter (src/lib/index.js lines 373-463) -/

/-- Source `processTemplateKeyValue` result object
`{ isKeyFunction, returnValue }`. -/
structure KVResult where
  isKeyFunction : Bool
  returnValue : Val

/-- The value-expression test of `processTemplateKeyValue`: only string
values are offered to the decoder. -/
def valueExprOf (value : Val) (cfg : Config) : Option FnExpr :=
  match value with
  | .vstr s => decodeFunctionString s cfg
  | _ => none

/-- Source `processTemplateKeyValue`: decode the key and (when the value
is a string) the value; execute the value call first (malformed argument
content throws), then a decoded key is executed with exactly one
argument - the value call's return if there was one, the raw value
otherwise. No write happens here. -/
def processTemplateKeyValue (template : Val) (position : List String)
    (fns : Funcs) (cfg : Config) : Except RunErr (Option KVResult) :=
  let key := position.getLastD ""
  let value := applyPosition template position
  let keyAsFunction := decodeFunctionString key cfg
  match value, valueExprOf value cfg with
  | .vstr s, some valAsFunction =>
    match decodeFunctionArgumentString (FnExpr.functionArgumentContent valAsFunction) with
    | some args =>
      match executeFunction (FnExpr.functionName valAsFunction)
              (args.map Val.vstr) template position fns with
      | .error e => .error e
      | .ok valFuncReturn =>
        match keyAsFunction with
        | some ke =>
          match executeFunction (FnExpr.functionName ke) [valFuncReturn]
                  template position fns with
          | .error e => .error e
          | .ok ret => .ok (some ⟨true, ret⟩)
        | none => .ok (some ⟨false, valFuncReturn⟩)
    | none => .error (errBanner ("arguments of " ++ s ++ " were malformed"))
  | _, _ =>
    match keyAsFunction with
    | some ke =>
      match executeFunction (FnExpr.functionName ke) [value] template position fns with
      | .error e => .error e
      | .ok ret => .ok (some ⟨true, ret⟩)
    | none => .ok none

/-- The rewriter state. `roots` is the fresh roots-copy object that
source `processTemplate` builds and every `applyPosition` and write goes
through; `live` is the serverless template whose root property values
the roots copy aliases at the start of the run; `detached` lists the
root slots of the copy that a whole-node replacement has rebound, after
which the live tree no longer sees writes under them. -/
structure RW where
  roots : Val
  live : Val
  detached : List String

/-- One JS assignment `applyPosition(roots, dropLast p)[last p] := v`,
with its aliasing consequence for the live template: a depth-one write
rebinds a slot of the roots-copy object itself (invisible to the live
tree, and detaching that root), a deeper write mutates the shared node
(visible in the live tree unless its root was already detached). -/
def writeAt (st : RW) (p : List String) (v : Val) : RW :=
  match p with
  | [] => st
  | [r] => ⟨setPath (RW.roots st) p v, RW.live st, r :: RW.detached st⟩
  | r :: _ :: _ =>
    ⟨setPath (RW.roots st) p v,
     if (RW.detached st).contains r then RW.live st
     else setPath (RW.live st) p v,
     RW.detached st⟩

/-- The two recursion sites of source `inplaceFormatField`: visiting the
node at a position, and the `Object.keys(element).some(...)` loop over a
snapshot of its child keys. -/
inductive WalkTask where
  | visit : List String → WalkTask
  | childLoop : List String → List String → WalkTask

/-- Source `inplaceFormatField`, fuel-indexed. `visit position` is a call
of the source function: nothing to do unless the node is an object/array,
otherwise loop over the snapshotted key list. `childLoop position ks`
is the `.some` loop body chain: recurse into the child first (post-order),
then - only below the rewriter root, `position.length > 0` - process the
pair; a key call overwrites the whole owning node at the parent slot,
re-visits `position` and stops the loop (the source callback returns
`true`); a value call overwrites the child slot, re-visits the child and
continues with the remaining keys. Every recursive call consumes fuel, so
the recursion is structural and computes by reduction. -/
def inplaceFormat (fns : Funcs) (cfg : Config) :
    Nat → WalkTask → RW → Except RunErr RW
  | 0, _, _ => .error .fuel
  | fuel + 1, .visit position, st =>
    let element := applyPosition (RW.roots st) position
    if isObjectVal element then
      inplaceFormat fns cfg fuel (.childLoop position (keysOf element)) st
    else
      .ok st
  | _ + 1, .childLoop _ [], st => .ok st
  | fuel + 1, .childLoop position (childKey :: rest), st =>
    let childPosition := position ++ [childKey]
    match inplaceFormat fns cfg fuel (.visit childPosition) st with
    | .error e => .error e
    | .ok st1 =>
      if position.length > 0 then
        match processTemplateKeyValue (RW.roots st1) childPosition fns cfg with
        | .error e => .error e
        | .ok (some info) =>
          if KVResult.isKeyFunction info then
            inplaceFormat fns cfg fuel (.visit position)
              (writeAt st1 position (KVResult.returnValue info))
          else
            match inplaceFormat fns cfg fuel (.visit childPosition)
                    (writeAt st1 childPosition (KVResult.returnValue info)) with
            | .error e => .error e
            | .ok st2 => inplaceFormat fns cfg fuel (.childLoop position rest) st2
        | .ok none => inplaceFormat fns cfg fuel (.childLoop position rest) st1
      else
        inplaceFormat fns cfg fuel (.childLoop position rest) st1

/-- A call `inplaceFormatField(template, position, ...)` of the source. -/
def inplaceFormatField (fns : Funcs) (cfg : Config) (fuel : Nat)
    (st : RW) (position : List String) : Except RunErr RW :=
  inplaceFormat fns cfg fuel (.visit position) st

/-- Source `processTemplate` (with config reading and module loading
factored out as parameters): build the fresh roots object, one slot per
configured root aliasing the live template's root property, then rewrite
from the empty position. -/
def processTemplate (slsTemplate : Val) (fns : Funcs) (cfg : Config)
    (fuel : Nat) : Except RunErr RW :=
  let rootsTree := (Config.roots cfg).foldl
    (fun acc r => setProp acc r (getProp slsTemplate r)) (.vobj [])
  inplaceFormat fns cfg fuel (.visit []) ⟨rootsTree, slsTemplate, []⟩

/-! ## Concrete scenarios used by the theorems -/

/-- The default expression marker with a single scanned root. -/
def cfgPlus : Config := ⟨"+", ["custom"]⟩

/-- Read a string scalar out of a tree (scenario helper for observer
functions). -/
def strAtPath (v : Val) (p : List String) : String :=
  match applyPosition v p with
  | .vstr s => s
  | _ => "?"

/-- Observer returning the sibling value at `custom.b` as seen through
its context's template, tagged so the result is not itself an
expression. -/
def fnObsB : Fn := fun _ ctx =>
  .ok (.vstr ("obs-" ++ strAtPath (ServerlessTemplateContext.template ctx) ["custom", "b"]))

/-- Observer returning the sibling value at `custom.a` as seen through
its context's template. -/
def fnObsA : Fn := fun _ ctx =>
  .ok (.vstr ("obs-" ++ strAtPath (ServerlessTemplateContext.template ctx) ["custom", "a"]))

/-- Registry for the snapshot-observation run. -/
def fnsObs : Funcs := [("f", fnObsB), ("g", fnObsA)]

/-- Template with two sibling value-expressions under one root. -/
def slsObs : Val := .vobj [("custom", .vobj [("a", .vstr "+f()"), ("b", .vstr "+g()")])]

/-- The roots copy at the start of the snapshot-observation run. -/
def obsRootsAtStart : Val := .vobj [("custom", .vobj [("a", .vstr "+f()"), ("b", .vstr "+g()")])]

/-- The roots copy at the moment `g` is invoked: the sibling `a` has
already been substituted. -/
def obsRootsAtG : Val := .vobj [("custom", .vobj [("a", .vstr "obs-+g()"), ("b", .vstr "+g()")])]

/-- Final tree of the snapshot-observation run. -/
def obsFinal : Val := .vobj [("custom", .vobj [("a", .vstr "obs-+g()"), ("b", .vstr "obs-obs-+g()")])]

/-- A function that returns another expression string. -/
def fnChainsToG : Fn := fun _ _ => .ok (.vstr "+g()")

/-- A function that returns a structure containing an expression string. -/
def fnChainsToGStruct : Fn := fun _ _ => .ok (.vobj [("x", .vstr "+g()")])

/-- A function that returns a plain scalar. -/
def fnDone : Fn := fun _ _ => .ok (.vstr "done")

/-- Registry where `f` chains to the expression string `+g()`. -/
def fnsChainStr : Funcs := [("f", fnChainsToG), ("g", fnDone)]

/-- Registry where `f` returns a structure containing `+g()`. -/
def fnsChainStruct : Funcs := [("f", fnChainsToGStruct), ("g", fnDone)]

/-- Template with a single value-expression at `custom.p`. -/
def slsChain : Val := .vobj [("custom", .vobj [("p", .vstr "+f()")])]

/-- Constant-value function used by the key-call frame run. -/
def fnRepl : Fn := fun _ _ => .ok (.vstr "REPL")

/-- Constant-value function used by the deep-substitution side of the
frame run. -/
def fnH : Fn := fun _ _ => .ok (.vstr "H")

/-- Registry for the frame run. -/
def fnsFrame : Funcs := [("f", fnRepl), ("h", fnH)]

/-- Two configured roots for the frame run. -/
def cfgFrame : Config := ⟨"+", ["custom", "resources"]⟩

/-- Live template for the frame run: a key-expression directly on the
`custom` root value, a value-expression at depth two under `resources`,
and an unscanned extra property. -/
def slsFrame : Val :=
  .vobj [("custom", .vobj [("+f()", .vstr "x")]),
         ("resources", .vobj [("a", .vstr "+h()")]),
         ("other", .vstr "keep")]

/-- The two-module export list colliding on the short alias `f`. -/
def modsAlias (fA fB : Fn) : List (String × ModExport) :=
  [("modA", .mobj [("f", .mfn fA)]), ("modB", .mobj [("f", .mfn fB)])]

/-- A trivial registered function for witnesses. -/
def dummyFn : Fn := fun _ _ => .ok .vnull

/-- Registry for the key-call witnesses: `f` for the key call, `h` for a
value call. -/
def fnsKeyW : Funcs :=
  [("f", fun _ _ => .ok (.vstr "R")), ("h", fun _ _ => .ok (.vstr "V"))]

/-- State whose `custom` root owns a key-expression pair plus a sibling
key. -/
def stKeyW : RW :=
  ⟨.vobj [("custom", .vobj [("+f()", .vstr "val"), ("zz", .vstr "w")])], .vobj [], []⟩

/-- Roots tree whose key-expression pair also has a value-expression. -/
def rootsKeyW2 : Val := .vobj [("custom", .vobj [("+f()", .vstr "+h()")])]


/-! ## Theorems -/

/-- C4: the spec says an argument source that ends inside a double-quoted
literal is malformed, and the spec-side grammar machine indeed rejects
it; but the source tokenizer has no end-of-input check and accepts the
input, silently dropping the dangling literal and returning the arguments
completed so far (here: none). -/
theorem unterminated_literal_accepted :
    decodeFunctionArgumentString "\"abc" = some [] ∧
    decodeFunctionArgumentString "\"a\", \"b" = some ["a"] ∧
    specArgTokenize "\"abc" = none :=
  ⟨rfl, rfl, rfl⟩

/-- C5: a `roots` value that is an array containing a number passes
source `validateConfig` (its third condition tests `modules.every`, not
`roots.every`), so `getConfig` returns the invalid settings instead of
raising the validation error the spec requires. -/
theorem nonstring_roots_accepted :
    validateConfig ⟨.varr [], .vstr "+", .varr [.vnum 5]⟩ = none ∧
    getConfig (.vobj [("custom",
        .vobj [("templateFunctionCalls", .vobj [("roots", .varr [.vnum 5])])])])
      = .ok ⟨.varr [], .vstr "+", .varr [.vnum 5]⟩ :=
  ⟨rfl, rfl⟩

/-- C6: source `decodeFunctionString` performs no trimming, so an
expression surrounded by whitespace does not decode even though the
trimmed string does - contradicting the spec and the package README
("strings are trimmed for the interpretation as a function call
string"). -/
theorem decode_not_trimmed :
    decodeFunctionString " +f()" cfgPlus = none ∧
    decodeFunctionString "+f() " cfgPlus = none ∧
    decodeFunctionString "+f()" cfgPlus = some ⟨"f", ""⟩ :=
  ⟨rfl, rfl, rfl⟩

/-- C10: a key-expression whose owning node is the value directly under a
configured root rebinds only the slot of the fresh roots-copy object
(a depth-one `writeAt` leaves the live tree untouched and detaches the
root), so after the run the live template's root property still holds the
original node; a substitution at depth two or more goes through the
shared node and is visible in the live template. The concrete run shows
both on `processTemplate`. -/
theorem root_slot_replacement_frame :
    (∀ (roots live : Val) (det : List String) (r : String) (v : Val),
        RW.live (writeAt ⟨roots, live, det⟩ [r] v) = live ∧
        RW.roots (writeAt ⟨roots, live, det⟩ [r] v) = setProp roots r v ∧
        RW.detached (writeAt ⟨roots, live, det⟩ [r] v) = r :: det) ∧
    (∀ (roots live v : Val) (r k : String) (rest : List String),
        RW.live (writeAt ⟨roots, live, []⟩ (r :: k :: rest) v)
          = setPath live (r :: k :: rest) v) ∧
    processTemplate slsFrame fnsFrame cfgFrame 100 =
      .ok ⟨.vobj [("custom", .vstr "REPL"), ("resources", .vobj [("a", .vstr "H")])],
           .vobj [("custom", .vobj [("+f()", .vstr "x")]),
                  ("resources", .vobj [("a", .vstr "H")]),
                  ("other", .vstr "keep")],
           ["custom"]⟩ :=
  ⟨fun _ _ _ _ _ => ⟨rfl, rfl, rfl⟩, fun _ _ _ _ _ _ => rfl, rfl⟩

/-- Helper: the last element of a position extended by one segment. -/
theorem getLastD_append_singleton (l : List String) (a d : String) :
    (l ++ [a]).getLastD d = a := by
  induction l generalizing d with
  | nil => rfl
  | cons x xs ih => rw [List.cons_append, List.getLastD_cons]; exact ih x

/-- Lookup on a nonempty functions object, head first. -/
theorem jsGetFn_cons (k : String) (v : Fn) (rest : Funcs) (n : String) :
    jsGetFn ((k, v) :: rest) n
      = if (k == n) = true then some v else jsGetFn rest n := by
  by_cases hk : (k == n) = true
  · simp [jsGetFn, List.find?_cons_of_pos, hk]
  · simp [jsGetFn, List.find?_cons_of_neg, hk]

/-- C2 counterexample: the run on two sibling value-expressions, whose
functions report what their context's template holds, ends with
`custom.b = "obs-obs-+g()"` - the second invocation observed the already
substituted sibling `a` - whereas a context referencing a snapshot frozen
at the start of the run (third conjunct: `g` applied to the start-of-run
tree) would have produced `"obs-+f()"`. The claim that every invocation
sees one per-run frozen snapshot is false on the code. -/
theorem snapshot_not_frozen_per_run_cex :
    processTemplate slsObs fnsObs cfgPlus 100 = .ok ⟨obsFinal, obsFinal, []⟩ ∧
    applyPosition obsFinal ["custom", "b"] = .vstr "obs-obs-+g()" ∧
    executeFunction "g" [] obsRootsAtStart ["custom", "b"] fnsObs
      = .ok (.vstr "obs-+f()") ∧
    Val.vstr "obs-obs-+g()" ≠ Val.vstr "obs-+f()" :=
  ⟨rfl, rfl, rfl, fun h => absurd (Val.vstr.inj h) (by decide)⟩

/-- C2 (amended): every invocation receives its own context whose
template is the deep copy of the tree as it stands at that invocation
(`executeFunction` builds the context from the tree it is handed and runs
the callable on it), so invocations observe substitutions made earlier in
the same run: `g` applied to the mid-run tree returns exactly what the
full run records at `custom.b`. -/
theorem snapshot_taken_per_invocation :
    (∀ (functionName : String) (args : List Val) (tpl : Val)
        (pos : List String) (fns : Funcs) (f : Fn) (v : Val),
        jsGetFn fns functionName = some f →
        f args (mkServerlessTemplateContext tpl pos) = .ok v →
        executeFunction functionName args tpl pos fns = .ok v) ∧
    (∀ (tpl : Val) (pos : List String),
        ServerlessTemplateContext.template (mkServerlessTemplateContext tpl pos)
          = deepCopy tpl) ∧
    executeFunction "g" [] obsRootsAtG ["custom", "b"] fnsObs
      = .ok (.vstr "obs-obs-+g()") ∧
    processTemplate slsObs fnsObs cfgPlus 100 = .ok ⟨obsFinal, obsFinal, []⟩ := by
  refine ⟨?_, fun _ _ => rfl, rfl, rfl⟩
  intro functionName args tpl pos fns f v h1 h2
  simp [executeFunction, h1, h2]

/-- C2 witness: the first invocation of the observation run, fed through
the theorem's invocation rule. -/
theorem snapshot_taken_per_invocation_check :
    executeFunction "f" [] obsRootsAtStart ["custom", "a"] fnsObs
      = .ok (.vstr "obs-+g()") :=
  snapshot_taken_per_invocation.1 "f" [] obsRootsAtStart ["custom", "a"]
    fnsObs fnObsB (.vstr "obs-+g()") rfl rfl

/-- C3 counterexample: a value-expression whose function returns the
expression string `+g()` finishes the run with that string still in
place, although it decodes under the configured marker and its function
is registered - processing does not continue until no reachable string
decodes. -/
theorem chained_string_unresolved_cex :
    processTemplate slsChain fnsChainStr cfgPlus 100 =
      .ok ⟨.vobj [("custom", .vobj [("p", .vstr "+g()")])],
           .vobj [("custom", .vobj [("p", .vstr "+g()")])], []⟩ ∧
    decodeFunctionString "+g()" cfgPlus = some ⟨"g", ""⟩ ∧
    (jsGetFn fnsChainStr "g").isSome = true :=
  ⟨rfl, rfl, rfl⟩

/-- C3 (amended): after a value substitution the rewriter re-visits the
substituted position, which resolves expression strings strictly inside a
returned structure (concrete run: `f` returns `{x: "+g()"}` and the run
ends with `{x: "done"}`), but visiting a non-object is a no-op, so an
expression string returned directly is left unresolved. -/
theorem chained_resolution_structure_only :
    (∀ (fns : Funcs) (cfg : Config) (fuel : Nat) (st : RW) (pos : List String),
        isObjectVal (applyPosition (RW.roots st) pos) = false →
        inplaceFormat fns cfg (fuel + 1) (.visit pos) st = .ok st) ∧
    processTemplate slsChain fnsChainStruct cfgPlus 100 =
      .ok ⟨.vobj [("custom", .vobj [("p", .vobj [("x", .vstr "done")])])],
           .vobj [("custom", .vobj [("p", .vobj [("x", .vstr "done")])])], []⟩ := by
  refine ⟨?_, rfl⟩
  intro fns cfg fuel st pos h
  simp [inplaceFormat, h]

/-- C3 witness: re-visiting the scalar position `custom.p` changes
nothing. -/
theorem chained_resolution_structure_only_check :
    inplaceFormat fnsChainStr cfgPlus 1 (.visit ["custom", "p"])
      ⟨slsChain, slsChain, []⟩ = .ok ⟨slsChain, slsChain, []⟩ :=
  chained_resolution_structure_only.1 fnsChainStr cfgPlus 0
    ⟨slsChain, slsChain, []⟩ ["custom", "p"] rfl

/-- Lookup survives an assignment under a key that was absent. -/
theorem jsGetFn_objSetFn_preserved (acc : Funcs) (s n : String) (g f : Fn)
    (habs : jsGetFn acc s = none) (h : jsGetFn acc n = some f) :
    jsGetFn (objSetFn acc s g) n = some f := by
  induction acc with
  | nil => simp [jsGetFn] at h
  | cons kv rest ih =>
    obtain ⟨k, v⟩ := kv
    rw [jsGetFn_cons] at habs h
    by_cases hks : (k == s) = true
    · rw [if_pos hks] at habs; exact absurd habs (by simp)
    · rw [if_neg hks] at habs
      have hset : objSetFn ((k, v) :: rest) s g = (k, v) :: objSetFn rest s g := by
        simp [objSetFn, hks]
      rw [hset, jsGetFn_cons]
      by_cases hkn : (k == n) = true
      · rw [if_pos hkn] at h ⊢; exact h
      · rw [if_neg hkn] at h ⊢; exact ih habs h

/-- C9: with `modA.f` registered before `modB.f`, the short alias `f`
resolves to `modA.f`'s function, both remain reachable by qualified name,
and - in general - the alias pass never assigns over an entry that is
already present. -/
theorem alias_first_come_wins :
    (∀ (fA fB : Fn),
        jsGetFn (formatModules (modsAlias fA fB)) "f" = some fA ∧
        jsGetFn (formatModules (modsAlias fA fB)) "modA.f" = some fA ∧
        jsGetFn (formatModules (modsAlias fA fB)) "modB.f" = some fB) ∧
    (∀ (base : Funcs) (name : String) (f : Fn),
        jsGetFn base name = some f → jsGetFn (addAliases base) name = some f) := by
  constructor
  · exact fun fA fB => ⟨rfl, rfl, rfl⟩
  · intro base name f h
    unfold addAliases
    generalize base.map (fun kv => kv.1) = names
    induction names generalizing base with
    | nil => simpa using h
    | cons x xs ih =>
      simp only [List.foldl_cons]
      apply ih
      cases hshort : jsGetFn base (shortNameOf x) with
      | some g => simpa [hshort] using h
      | none =>
        cases hx : jsGetFn base x with
        | some g =>
          simp only [hshort, hx]
          exact jsGetFn_objSetFn_preserved base (shortNameOf x) name g f hshort h
        | none => simpa [hshort, hx] using h

/-- C9 witness: the alias pass leaves a present qualified entry in
place. -/
theorem alias_first_come_wins_check :
    jsGetFn (addAliases [("modA.f", dummyFn)]) "modA.f" = some dummyFn :=
  alias_first_come_wins.2 [("modA.f", dummyFn)] "modA.f" dummyFn rfl

/-- C1: a child pair at depth two or more (the loop below a nonempty
position) whose key decodes as an expression causes, first, exactly one
argument to be passed to the key's function - the value call's result if
the pair's value was itself a value-expression (third conjunct), the raw
original value otherwise (second conjunct) - and, second, the entire node
owning that key to be overwritten at the parent's slot (`writeAt st1 pos`,
discarding every other key of the node), after which the remaining
sibling keys are not processed: the loop result is exactly the re-visit
of the replaced position, `rest` never being consumed (first conjunct). -/
theorem key_call_replaces_owner_and_skips_siblings :
    (∀ (fns : Funcs) (cfg : Config) (fuel : Nat) (st st1 : RW) (ret : Val)
        (pos : List String) (k : String) (rest : List String),
        pos ≠ [] →
        inplaceFormat fns cfg fuel (.visit (pos ++ [k])) st = .ok st1 →
        processTemplateKeyValue (RW.roots st1) (pos ++ [k]) fns cfg
          = .ok (some ⟨true, ret⟩) →
        inplaceFormat fns cfg (fuel + 1) (.childLoop pos (k :: rest)) st
          = inplaceFormat fns cfg fuel (.visit pos) (writeAt st1 pos ret)) ∧
    (∀ (fns : Funcs) (cfg : Config) (tpl : Val) (pos : List String)
        (k : String) (ke : FnExpr),
        decodeFunctionString k cfg = some ke →
        valueExprOf (applyPosition tpl (pos ++ [k])) cfg = none →
        processTemplateKeyValue tpl (pos ++ [k]) fns cfg =
          (executeFunction (FnExpr.functionName ke)
              [applyPosition tpl (pos ++ [k])] tpl (pos ++ [k]) fns).map
            (fun ret => some ⟨true, ret⟩)) ∧
    (∀ (fns : Funcs) (cfg : Config) (tpl : Val) (pos : List String)
        (k : String) (ke ve : FnExpr) (s : String) (toks : List String) (v' : Val),
        decodeFunctionString k cfg = some ke →
        applyPosition tpl (pos ++ [k]) = .vstr s →
        decodeFunctionString s cfg = some ve →
        decodeFunctionArgumentString (FnExpr.functionArgumentContent ve) = some toks →
        executeFunction (FnExpr.functionName ve) (toks.map Val.vstr)
          tpl (pos ++ [k]) fns = .ok v' →
        processTemplateKeyValue tpl (pos ++ [k]) fns cfg =
          (executeFunction (FnExpr.functionName ke) [v'] tpl (pos ++ [k]) fns).map
            (fun ret => some ⟨true, ret⟩)) := by
  refine ⟨?_, ?_, ?_⟩
  · intro fns cfg fuel st st1 ret pos k rest hpos h1 h2
    have hlen : 0 < pos.length := List.length_pos.mpr hpos
    simp only [inplaceFormat, h1, h2, hlen, if_pos]
  · intro fns cfg tpl pos k ke hk hv
    have hkey : (pos ++ [k]).getLastD "" = k := getLastD_append_singleton pos k ""
    cases hval : applyPosition tpl (pos ++ [k]) with
    | vstr s =>
      rw [hval] at hv
      simp only [valueExprOf] at hv
      simp only [processTemplateKeyValue, hkey, hk, hval, valueExprOf, hv]
      cases executeFunction (FnExpr.functionName ke) [Val.vstr s] tpl (pos ++ [k]) fns with
      | ok r => rfl
      | error e => rfl
    | vnum n =>
      simp only [processTemplateKeyValue, hkey, hk, hval, valueExprOf]
      cases executeFunction (FnExpr.functionName ke) [Val.vnum n] tpl (pos ++ [k]) fns with
      | ok r => rfl
      | error e => rfl
    | vbool b =>
      simp only [processTemplateKeyValue, hkey, hk, hval, valueExprOf]
      cases executeFunction (FnExpr.functionName ke) [Val.vbool b] tpl (pos ++ [k]) fns with
      | ok r => rfl
      | error e => rfl
    | vnull =>
      simp only [processTemplateKeyValue, hkey, hk, hval, valueExprOf]
      cases executeFunction (FnExpr.functionName ke) [Val.vnull] tpl (pos ++ [k]) fns with
      | ok r => rfl
      | error e => rfl
    | vundefined =>
      simp only [processTemplateKeyValue, hkey, hk, hval, valueExprOf]
      cases executeFunction (FnExpr.functionName ke) [Val.vundefined] tpl (pos ++ [k]) fns with
      | ok r => rfl
      | error e => rfl
    | varr xs =>
      simp only [processTemplateKeyValue, hkey, hk, hval, valueExprOf]
      cases executeFunction (FnExpr.functionName ke) [Val.varr xs] tpl (pos ++ [k]) fns with
      | ok r => rfl
      | error e => rfl
    | vobj kvs =>
      simp only [processTemplateKeyValue, hkey, hk, hval, valueExprOf]
      cases executeFunction (FnExpr.functionName ke) [Val.vobj kvs] tpl (pos ++ [k]) fns with
      | ok r => rfl
      | error e => rfl
  · intro fns cfg tpl pos k ke ve s toks v' hk hval hs htoks hexec
    have hkey : (pos ++ [k]).getLastD "" = k := getLastD_append_singleton pos k ""
    simp only [processTemplateKeyValue, hkey, hk, hval, valueExprOf, hs, htoks, hexec]
    cases executeFunction (FnExpr.functionName ke) [v'] tpl (pos ++ [k]) fns with
    | ok r => rfl
    | error e => rfl

/-- C1 witness: concrete instances of all three conjuncts - a key call
with a non-expression value replaces the whole `custom` node although a
sibling key `zz` remains, and the single-argument rules evaluated on
concrete registries. -/
theorem key_call_replaces_owner_and_skips_siblings_check :
    inplaceFormat fnsKeyW cfgPlus 2 (.childLoop ["custom"] ["+f()", "zz"]) stKeyW
      = inplaceFormat fnsKeyW cfgPlus 1 (.visit ["custom"])
          (writeAt stKeyW ["custom"] (.vstr "R")) ∧
    processTemplateKeyValue (RW.roots stKeyW) ["custom", "+f()"] fnsKeyW cfgPlus =
      (executeFunction "f" [applyPosition (RW.roots stKeyW) ["custom", "+f()"]]
          (RW.roots stKeyW) ["custom", "+f()"] fnsKeyW).map
        (fun ret => some ⟨true, ret⟩) ∧
    processTemplateKeyValue rootsKeyW2 ["custom", "+f()"] fnsKeyW cfgPlus =
      (executeFunction "f" [Val.vstr "V"]
          rootsKeyW2 ["custom", "+f()"] fnsKeyW).map
        (fun ret => some ⟨true, ret⟩) :=
  ⟨key_call_replaces_owner_and_skips_siblings.1 fnsKeyW cfgPlus 1 stKeyW stKeyW
      (.vstr "R") ["custom"] "+f()" ["zz"] (by simp) rfl rfl,
   key_call_replaces_owner_and_skips_siblings.2.1 fnsKeyW cfgPlus
      (RW.roots stKeyW) ["custom"] "+f()" ⟨"f", ""⟩ rfl rfl,
   key_call_replaces_owner_and_skips_siblings.2.2 fnsKeyW cfgPlus
      rootsKeyW2 ["custom"] "+f()" ⟨"f", ""⟩ ⟨"h", ""⟩ "+h()" [] (.vstr "V")
      rfl rfl rfl rfl rfl⟩

theorem specArgLoop_await_eq (c : Char) (rest : List Char) (args : List String) :
    specArgLoop (c :: rest) none true args
      = (if c = '"' then specArgLoop rest (some "") true args
         else if isJsWhitespace c then specArgLoop rest none true args
         else none) := by
  cases rest with
  | nil => rfl
  | cons d rest' => rfl

theorem decodeArgLoop_await_eq (c : Char) (rest : List Char) (args : List String) :
    decodeArgLoop (c :: rest) none true args
      = (if c = '"' then decodeArgLoop rest (some "") true args
         else if isJsWhitespace c then decodeArgLoop rest none true args
         else none) := by
  cases rest with
  | nil => rfl
  | cons d rest' => rfl

theorem specArgLoop_sep_eq (c : Char) (rest : List Char) (args : List String) :
    specArgLoop (c :: rest) none false args
      = (if c = ',' then specArgLoop rest none true args
         else if isJsWhitespace c then specArgLoop rest none false args
         else none) := by
  cases rest with
  | nil => rfl
  | cons d rest' => rfl

theorem decodeArgLoop_sep_eq (c : Char) (rest : List Char) (args : List String) :
    decodeArgLoop (c :: rest) none false args
      = (if c = ',' then decodeArgLoop rest none true args
         else if isJsWhitespace c then decodeArgLoop rest none false args
         else none) := by
  cases rest with
  | nil => rfl
  | cons d rest' => rfl

theorem specArgLoop_invalid_eq (c : Char) (rest : List Char) (cur : String)
    (args : List String) :
    specArgLoop (c :: rest) (some cur) false args = none := by
  cases rest with
  | nil => rfl
  | cons d rest' => rfl

theorem specArgLoop_imp : ∀ (l : List Char) (curr : Option String) (ac : Bool)
    (args r : List String), specArgLoop l curr ac args = some r →
    decodeArgLoop l curr ac args = some r
  | [], none, false, _, _ => fun h => h
  | [], none, true, _, _ => fun h => Option.noConfusion h
  | [], some _, true, _, _ => fun h => Option.noConfusion h
  | [], some _, false, _, _ => fun h => Option.noConfusion h
  | c :: rest, none, true, args, r => fun h => by
    rw [specArgLoop_await_eq] at h
    rw [decodeArgLoop_await_eq]
    by_cases h1 : c = '"'
    · rw [if_pos h1] at h; rw [if_pos h1]
      exact specArgLoop_imp rest (some "") true args r h
    · rw [if_neg h1] at h; rw [if_neg h1]
      by_cases h2 : isJsWhitespace c = true
      · rw [if_pos h2] at h; rw [if_pos h2]
        exact specArgLoop_imp rest none true args r h
      · rw [if_neg h2] at h; exact Option.noConfusion h
  | c :: d :: rest', some cur, true, args, r => fun h => by
    have hs : specArgLoop (c :: d :: rest') (some cur) true args
        = (if c = '\\' then specArgLoop rest' (some (cur.push d)) true args
           else if c = '"' then specArgLoop (d :: rest') none false (args ++ [cur])
           else specArgLoop (d :: rest') (some (cur.push c)) true args) := rfl
    have hd : decodeArgLoop (c :: d :: rest') (some cur) true args
        = (if c = '\\' then decodeArgLoop rest' (some (cur.push d)) true args
           else if c = '"' then decodeArgLoop (d :: rest') none false (args ++ [cur])
           else decodeArgLoop (d :: rest') (some (cur.push c)) true args) := rfl
    rw [hs] at h
    rw [hd]
    by_cases h1 : c = '\\'
    · rw [if_pos h1] at h; rw [if_pos h1]
      exact specArgLoop_imp rest' (some (cur.push d)) true args r h
    · rw [if_neg h1] at h; rw [if_neg h1]
      by_cases h2 : c = '"'
      · rw [if_pos h2] at h; rw [if_pos h2]
        exact specArgLoop_imp (d :: rest') none false (args ++ [cur]) r h
      · rw [if_neg h2] at h; rw [if_neg h2]
        exact specArgLoop_imp (d :: rest') (some (cur.push c)) true args r h
  | [c], some cur, true, args, r => fun h => by
    have hs : specArgLoop [c] (some cur) true args
        = (if c = '\\' then none
           else if c = '"' then specArgLoop [] none false (args ++ [cur])
           else specArgLoop [] (some (cur.push c)) true args) := rfl
    have hd : decodeArgLoop [c] (some cur) true args
        = (if c = '\\' then decodeArgLoop [] (some (cur ++ "undefined")) true args
           else if c = '"' then decodeArgLoop [] none false (args ++ [cur])
           else decodeArgLoop [] (some (cur.push c)) true args) := rfl
    rw [hs] at h
    rw [hd]
    by_cases h1 : c = '\\'
    · rw [if_pos h1] at h; exact Option.noConfusion h
    · rw [if_neg h1] at h; rw [if_neg h1]
      by_cases h2 : c = '"'
      · rw [if_pos h2] at h; rw [if_pos h2]
        exact specArgLoop_imp [] none false (args ++ [cur]) r h
      · rw [if_neg h2] at h; rw [if_neg h2]
        exact specArgLoop_imp [] (some (cur.push c)) true args r h
  | c :: rest, none, false, args, r => fun h => by
    rw [specArgLoop_sep_eq] at h
    rw [decodeArgLoop_sep_eq]
    by_cases h1 : c = ','
    · rw [if_pos h1] at h; rw [if_pos h1]
      exact specArgLoop_imp rest none true args r h
    · rw [if_neg h1] at h; rw [if_neg h1]
      by_cases h2 : isJsWhitespace c = true
      · rw [if_pos h2] at h; rw [if_pos h2]
        exact specArgLoop_imp rest none false args r h
      · rw [if_neg h2] at h; exact Option.noConfusion h
  | c :: rest, some cur, false, args, r => fun h => by
    rw [specArgLoop_invalid_eq] at h
    exact Option.noConfusion h

theorem splitAtParen_some_iff : ∀ (l name rest : List Char),
    splitAtParen l = some (name, rest) ↔ (l = name ++ '(' :: rest ∧ '(' ∉ name) := by
  intro l
  induction l with
  | nil =>
    intro name rest
    simp [splitAtParen, List.nil_eq_append_iff]
  | cons c tl ih =>
    intro name rest
    simp only [splitAtParen]
    by_cases hc : c = '('
    · subst hc
      rw [if_pos rfl]
      constructor
      · intro h
        obtain ⟨h1, h2⟩ := Prod.ext_iff.mp (Option.some.inj h)
        simp only at h1 h2
        subst h1; subst h2
        exact ⟨rfl, List.not_mem_nil _⟩
      · rintro ⟨heq, hnot⟩
        cases name with
        | nil =>
          simp only [List.nil_append, List.cons.injEq] at heq
          rw [heq.2]
        | cons a name' =>
          simp only [List.cons_append, List.cons.injEq] at heq
          exact absurd (heq.1 ▸ List.mem_cons_self a name') (fun hmem => hnot (heq.1 ▸ hmem))
    · rw [if_neg hc]
      constructor
      · intro h
        obtain ⟨⟨n0, r0⟩, hsp, hmk⟩ := Option.map_eq_some'.mp h
        obtain ⟨h1, h2⟩ := Prod.ext_iff.mp hmk
        simp only at h1 h2
        obtain ⟨heq, hnot⟩ := (ih n0 r0).mp hsp
        subst h1; subst h2
        refine ⟨by rw [heq]; rfl, ?_⟩
        intro hmem
        rcases List.mem_cons.mp hmem with h | h
        · exact hc h.symm
        · exact hnot h
      · rintro ⟨heq, hnot⟩
        cases name with
        | nil =>
          simp only [List.nil_append, List.cons.injEq] at heq
          exact absurd heq.1 hc
        | cons a name' =>
          simp only [List.cons_append, List.cons.injEq] at heq
          have hnot' : '(' ∉ name' := fun hm => hnot (List.mem_cons_of_mem a hm)
          have := (ih name' rest).mpr ⟨heq.2, hnot'⟩
          rw [this]
          simp [heq.1]

theorem splitLastParen_some_iff : ∀ (l mid : List Char),
    splitLastParen l = some mid ↔ l = mid ++ [')'] := by
  intro l
  induction l with
  | nil =>
    intro mid
    simp [splitLastParen, List.nil_eq_append_iff]
  | cons c tl ih =>
    intro mid
    cases tl with
    | nil =>
      simp only [splitLastParen]
      by_cases hc : c = ')'
      · subst hc
        rw [if_pos rfl]
        constructor
        · intro h
          rw [← Option.some.inj h]
          rfl
        · intro h
          cases mid with
          | nil => rfl
          | cons a mid' =>
            simp only [List.cons_append, List.cons.injEq] at h
            exact absurd h.2 (by simp [List.nil_eq_append_iff])
      · rw [if_neg hc]
        constructor
        · intro h; exact Option.noConfusion h
        · intro h
          cases mid with
          | nil =>
            simp only [List.nil_append, List.cons.injEq] at h
            exact absurd h.1 hc
          | cons a mid' =>
            simp only [List.cons_append, List.cons.injEq] at h
            exact absurd h.2 (by simp [List.nil_eq_append_iff])
    | cons d tl' =>
      have hred : splitLastParen (c :: d :: tl')
          = (splitLastParen (d :: tl')).map (fun mid => c :: mid) := rfl
      rw [hred]
      constructor
      · intro h
        obtain ⟨m0, hm, hmk⟩ := Option.map_eq_some'.mp h
        have := (ih m0).mp hm
        rw [← hmk, this]
        rfl
      · intro h
        cases mid with
        | nil =>
          simp only [List.nil_append, List.cons.injEq] at h
          exact absurd h.2 (by simp)
        | cons a mid' =>
          simp only [List.cons_append, List.cons.injEq] at h
          rw [(ih mid').mpr h.2]
          simp [h.1]

theorem functionStringRegexMatch_some_iff :
    ∀ (l name mid : List Char),
    functionStringRegexMatch l = some (name, mid) ↔
      (l = name ++ '(' :: (mid ++ [')']) ∧ '(' ∉ name ∧ mid.all jsDotMatches = true) := by
  intro l name mid
  simp only [functionStringRegexMatch]
  cases h1 : splitAtParen l with
  | none =>
    dsimp only
    constructor
    · intro h; exact Option.noConfusion h
    · rintro ⟨heq, hnot, _⟩
      have := (splitAtParen_some_iff l name (mid ++ [')'])).mpr ⟨heq, hnot⟩
      rw [this] at h1
      exact Option.noConfusion h1
  | some pr =>
    obtain ⟨n0, r0⟩ := pr
    obtain ⟨heq0, hnot0⟩ := (splitAtParen_some_iff l n0 r0).mp h1
    dsimp only
    cases h2 : splitLastParen r0 with
    | none =>
      dsimp only
      constructor
      · intro h; exact Option.noConfusion h
      · rintro ⟨heq, hnot, _⟩
        have hsp := (splitAtParen_some_iff l name (mid ++ [')'])).mpr ⟨heq, hnot⟩
        rw [h1] at hsp
        obtain ⟨hn, hr⟩ := Prod.ext_iff.mp (Option.some.inj hsp)
        simp only at hn hr
        rw [hr] at h2
        rw [(splitLastParen_some_iff (mid ++ [')']) mid).mpr rfl] at h2
        exact Option.noConfusion h2
    | some m0 =>
      have hm0 : r0 = m0 ++ [')'] := (splitLastParen_some_iff r0 m0).mp h2
      dsimp only
      by_cases h3 : m0.all jsDotMatches = true
      · rw [if_pos h3]
        constructor
        · intro h
          obtain ⟨hn, hm⟩ := Prod.ext_iff.mp (Option.some.inj h)
          simp only at hn hm
          subst hn; subst hm
          exact ⟨by rw [heq0, hm0], hnot0, h3⟩
        · rintro ⟨heq, hnot, hall⟩
          have hsp := (splitAtParen_some_iff l name (mid ++ [')'])).mpr ⟨heq, hnot⟩
          rw [h1] at hsp
          obtain ⟨hn, hr⟩ := Prod.ext_iff.mp (Option.some.inj hsp)
          simp only at hn hr
          have hmid : m0 = mid := by
            rw [hr] at h2
            rw [(splitLastParen_some_iff (mid ++ [')']) mid).mpr rfl] at h2
            exact (Option.some.inj h2).symm
          rw [hmid, ← hn]
      · rw [if_neg h3]
        constructor
        · intro h; exact Option.noConfusion h
        · rintro ⟨heq, hnot, hall⟩
          have hsp := (splitAtParen_some_iff l name (mid ++ [')'])).mpr ⟨heq, hnot⟩
          rw [h1] at hsp
          obtain ⟨hn, hr⟩ := Prod.ext_iff.mp (Option.some.inj hsp)
          simp only at hn hr
          have hmid : m0 = mid := by
            rw [hr] at h2
            rw [(splitLastParen_some_iff (mid ++ [')']) mid).mpr rfl] at h2
            exact (Option.some.inj h2).symm
          rw [hmid] at h3
          exact absurd hall h3

theorem decode_some_iff (s : String) (cfg : Config) (e : FnExpr) :
    decodeFunctionString s cfg = some e ↔
    ∃ name content : List Char,
      s.data = (Config.functionPrefix cfg).data ++ (name ++ '(' :: (content ++ [')'])) ∧
      '(' ∉ name ∧ content.all jsDotMatches = true ∧
      e = ⟨String.mk name, String.mk content⟩ := by
  simp only [decodeFunctionString]
  set pre := (Config.functionPrefix cfg).data with hpre
  by_cases hp : s.data.take pre.length = pre
  · rw [if_neg (not_not_intro hp)]
    have hsplit : s.data = pre ++ s.data.drop pre.length := by
      conv_lhs => rw [← List.take_append_drop pre.length s.data]
      rw [hp]
    cases hm : functionStringRegexMatch (s.data.drop pre.length) with
    | none =>
      dsimp only
      constructor
      · intro h; exact Option.noConfusion h
      · rintro ⟨name, content, heq, hnot, hall, he⟩
        have hdrop : s.data.drop pre.length = name ++ '(' :: (content ++ [')']) := by
          rw [heq, List.drop_left]
        have hgot := (functionStringRegexMatch_some_iff
          (s.data.drop pre.length) name content).mpr ⟨hdrop, hnot, hall⟩
        rw [hgot] at hm
        exact Option.noConfusion hm
    | some pr =>
      obtain ⟨n0, c0⟩ := pr
      obtain ⟨heq0, hnot0, hall0⟩ :=
        (functionStringRegexMatch_some_iff (s.data.drop pre.length) n0 c0).mp hm
      dsimp only
      constructor
      · intro h
        refine ⟨n0, c0, ?_, hnot0, hall0, (Option.some.inj h).symm⟩
        rw [hsplit, heq0]
      · rintro ⟨name, content, heq, hnot, hall, he⟩
        have hdrop : s.data.drop pre.length = name ++ '(' :: (content ++ [')']) := by
          rw [heq, List.drop_left]
        have h2 := (functionStringRegexMatch_some_iff
          (s.data.drop pre.length) name content).mpr ⟨hdrop, hnot, hall⟩
        rw [hm] at h2
        obtain ⟨hn, hc⟩ := Prod.ext_iff.mp (Option.some.inj h2)
        simp only at hn hc
        rw [he, hn, hc]
  · rw [if_pos hp]
    constructor
    · intro h; exact Option.noConfusion h
    · rintro ⟨name, content, heq, hnot, hall, he⟩
      have htake : s.data.take pre.length = pre := by
        rw [heq]
        exact List.take_left pre _
      exact absurd htake hp

/-- C8: every argument source the spec grammar accepts, the source
tokenizer accepts with the same argument list, and everything the source
tokenizer rejects the grammar rejects too; the spec's concrete examples
evaluate as stated. But the inclusion is strict - the code additionally
accepts grammar-violating sources whose input ends after a trailing comma
or inside an unterminated literal, returning the completed arguments
instead of malformed. -/
theorem tokenizer_grammar_vs_code :
    (∀ (s : String) (r : List String),
        specArgTokenize s = some r → decodeFunctionArgumentString s = some r) ∧
    (∀ s : String,
        decodeFunctionArgumentString s = none → specArgTokenize s = none) ∧
    decodeFunctionArgumentString "\"a\", \"b\"" = some ["a", "b"] ∧
    decodeFunctionArgumentString "\"a\" \"b\"" = none ∧
    decodeFunctionArgumentString "\"a\\\"b\"" = some ["a\"b"] ∧
    decodeFunctionArgumentString "" = some [] ∧
    decodeFunctionArgumentString "\"a\"," = some ["a"] ∧
    specArgTokenize "\"a\"," = none := by
  have hfwd : ∀ (s : String) (r : List String),
      specArgTokenize s = some r → decodeFunctionArgumentString s = some r := by
    intro s r h
    simp only [specArgTokenize] at h
    simp only [decodeFunctionArgumentString]
    by_cases hl : jsTrim s.data = []
    · rw [if_pos hl] at h
      rw [hl, ← Option.some.inj h]
      rfl
    · rw [if_neg hl] at h
      exact specArgLoop_imp (jsTrim s.data) none true [] r h
  refine ⟨hfwd, ?_, rfl, rfl, rfl, rfl, rfl, rfl⟩
  intro s h
  cases hs : specArgTokenize s with
  | none => rfl
  | some r => rw [hfwd s r hs] at h; exact Option.noConfusion h

/-- C8 witness: a grammar-conforming source fed through the theorem's
inclusion. -/
theorem tokenizer_grammar_vs_code_check :
    decodeFunctionArgumentString "\"x\"" = some ["x"] :=
  tokenizer_grammar_vs_code.1 "\"x\"" ["x"] rfl

/-- C7 counterexample: the string made of marker, name `f` and a newline
between the parentheses satisfies every condition of the claimed
characterization (it is marker plus a parenthesis-free name plus an
argument source and a final closing parenthesis), yet the decoder returns
none, because the JS `.` in the source regex does not match line
terminators. -/
theorem decode_line_terminator_cex :
    decodeFunctionString "+f(\n)" cfgPlus = none ∧
    ("+f(\n)" : String).data
      = ("+" : String).data ++ (['f'] ++ '(' :: (['\n'] ++ [')'])) ∧
    ('(' ∉ (['f'] : List Char)) :=
  ⟨rfl, rfl, by decide⟩

/-- C7 (amended): decode succeeds exactly on a string that starts with
the literal marker and continues as a parenthesis-free function name, an
opening parenthesis, an argument source free of line terminators (the JS
`.` atom), and a closing parenthesis as the last character, returning
that name and argument source; an empty function name is legal at decode
time and fails only at registry lookup. -/
theorem decode_grammar_characterization :
    (∀ (s : String) (cfg : Config) (e : FnExpr),
        decodeFunctionString s cfg = some e ↔
        ∃ name content : List Char,
          s.data = (Config.functionPrefix cfg).data
              ++ (name ++ '(' :: (content ++ [')'])) ∧
          '(' ∉ name ∧ content.all jsDotMatches = true ∧
          e = ⟨String.mk name, String.mk content⟩) ∧
    decodeFunctionString "+()" cfgPlus = some ⟨"", ""⟩ ∧
    executeFunction "" [] (.vobj []) [] []
      = .error (errBanner "function \"\" was not found") :=
  ⟨decode_some_iff, rfl, rfl⟩

/-- C7 witness: the characterization instantiated at a concrete decoding
expression. -/
theorem decode_grammar_characterization_check :
    ∃ name content : List Char,
      ("+f()" : String).data = (Config.functionPrefix cfgPlus).data
          ++ (name ++ '(' :: (content ++ [')'])) ∧
      '(' ∉ name ∧ content.all jsDotMatches = true ∧
      (⟨"f", ""⟩ : FnExpr) = ⟨String.mk name, String.mk content⟩ :=
  (decode_grammar_characterization.1 "+f()" cfgPlus ⟨"f", ""⟩).mp rfl

end TemplateFnCalls
